import Mathlib

/-!
Verification of the bumpr configuration helpers (`bumpr/helpers.py`) and of the
spec-level contracts stated for the configuration resolver and version model.

The Python data model is embedded shallowly:

* `PyVal` models the Python values stored inside configuration trees.  A
  Python `dict` is an association list of string keys tagged with a flag
  `isObj` telling whether the object is an instance of the `ObjectDict`
  subclass (`isObj = true`) or a plain `dict` (`isObj = false`).  Python
  dictionaries preserve insertion order and have unique keys; assignment
  `d[k] = v` replaces the value in place when the key exists and appends
  otherwise, which is exactly what `setKey` does on the association list.
* Fallible Python operations are embedded with `Except`; `PyErr`
  distinguishes `KeyError` from `AttributeError`.
-/

inductive PyVal where
  | pystr (s : String)
  | pybool (b : Bool)
  | pyint (n : Int)
  | pylist (l : List PyVal)
  | dict (isObj : Bool) (entries : List (String × PyVal))

abbrev Entries := List (String × PyVal)

/-- Python dictionary lookup `d[k]` (as an option): first entry with the key. -/
def lookupKey : Entries → String → Option PyVal
  | [], _ => none
  | (k0, v0) :: rest, k => if k0 = k then some v0 else lookupKey rest k

/-- Python dictionary assignment `d[k] = v`: replace the value in place when
the key is present, append a new entry otherwise. -/
def setKey : Entries → String → PyVal → Entries
  | [], k, v => [(k, v)]
  | (k0, v0) :: rest, k, v =>
    if k0 = k then (k0, v) :: rest else (k0, v0) :: setKey rest k v

mutual

/-- Conversion applied by every `ObjectDict` store operation
(`helpers.py` lines 64-78): `if isinstance(value, dict) and not
isinstance(value, ObjectDict): value = ObjectDict(value)`.  Constructing
`ObjectDict(value)` runs `__init__`, which calls `update` on a fresh empty
dictionary, hence `odUpdateAux [] es`. -/
def odConvert : PyVal → PyVal
  | .dict false es => .dict true (odUpdateAux [] es)
  | v => v

/-- The loop of `ObjectDict.update` (`helpers.py` lines 74-78): for each
key/value pair of the incoming mapping, convert the value and store it with
`self[key] = value`. -/
def odUpdateAux : Entries → Entries → Entries
  | self, [] => self
  | self, (k, v) :: rest => odUpdateAux (setKey self k (odConvert v)) rest

end

/-- `ObjectDict.__init__` / `ObjectDict(mapping)` (`helpers.py` lines 58-59):
update an initially empty dictionary. -/
def odInit (es : Entries) : Entries := odUpdateAux [] es

/-- `ObjectDict.update` (`helpers.py` lines 74-78). -/
def odUpdate (self m : Entries) : Entries := odUpdateAux self m

/-- `ObjectDict.__setitem__` (`helpers.py` lines 69-72): convert plain dict
values to `ObjectDict`, then store. -/
def odSetItem (self : Entries) (k : String) (v : PyVal) : Entries :=
  setKey self k (odConvert v)

/-- `ObjectDict.__setattr__` (`helpers.py` lines 64-67): convert plain dict
values to `ObjectDict`, then execute `self[key] = value`, i.e. `__setitem__`
(which converts once more). -/
def odSetAttr (self : Entries) (k : String) (v : PyVal) : Entries :=
  odSetItem self k (odConvert v)

inductive PyErr where
  | keyError (k : String)
  | attributeError (k : String)
deriving Repr, DecidableEq

/-- Python `dict.__getitem__`: `d[k]`, raising `KeyError(k)` when absent. -/
def dictGetItem (self : Entries) (k : String) : Except PyErr PyVal :=
  match lookupKey self k with
  | some v => Except.ok v
  | none => Except.error (PyErr.keyError k)

/-- `ObjectDict.__getattr__` (`helpers.py` lines 61-62): attribute access on
a name that is not found through the normal attribute protocol is forwarded
directly to item access: `return self[key]`. -/
def odGetAttr (self : Entries) (k : String) : Except PyErr PyVal :=
  dictGetItem self k

theorem sizeOf_setKey_le (es : Entries) (k : String) (v : PyVal) :
    sizeOf (setKey es k v) ≤ sizeOf es + sizeOf k + sizeOf v + 2 := by
  induction es with
  | nil => simp [setKey]; omega
  | cons kv rest ih =>
    obtain ⟨k0, v0⟩ := kv
    simp only [setKey]
    split
    · rename_i hk
      subst hk
      simp
      omega
    · simp
      omega

mutual

theorem sizeOf_odConvert_le (v : PyVal) : sizeOf (odConvert v) ≤ sizeOf v := by
  match v with
  | .dict false es =>
    have h := sizeOf_odUpdateAux_le [] es
    simp [odConvert]
    simp at h
    omega
  | .dict true es => simp [odConvert]
  | .pystr s => simp [odConvert]
  | .pybool b => simp [odConvert]
  | .pyint n => simp [odConvert]
  | .pylist l => simp [odConvert]

theorem sizeOf_odUpdateAux_le (self es : Entries) :
    sizeOf (odUpdateAux self es) + 1 ≤ sizeOf self + sizeOf es := by
  match es with
  | [] => simp [odUpdateAux]
  | (k, v) :: rest =>
    have h1 := sizeOf_odUpdateAux_le (setKey self k (odConvert v)) rest
    have h2 := sizeOf_setKey_le self k (odConvert v)
    have h3 := sizeOf_odConvert_le v
    simp only [odUpdateAux]
    simp
    omega

end

theorem sizeOf_odInit_le (es : Entries) : sizeOf (odInit es) ≤ sizeOf es := by
  have h := sizeOf_odUpdateAux_le [] es
  simp [odInit] at h ⊢
  omega

mutual

/-- `ObjectDict.merge` (`helpers.py` lines 80-88): iterate over the incoming
mapping in order; dict values are first converted to `ObjectDict` when plain,
then, when the key is already present and holds an `ObjectDict`, merged
recursively in place (`self[key].merge(value); continue`); in every other
case the value is stored with `self[key] = value`. -/
def odMerge : Entries → Entries → Entries
  | self, [] => self
  | self, (k, PyVal.dict isO es) :: rest =>
    odMerge (odMergeDictStep self k (if isO then es else odInit es)) rest
  | self, (k, v) :: rest => odMerge (odSetItem self k v) rest
termination_by _ m => (sizeOf m, 1)
decreasing_by
  all_goals apply Prod.Lex.left
  all_goals try split
  all_goals simp
  all_goals have := sizeOf_odInit_le es
  all_goals omega

/-- One iteration of the `ObjectDict.merge` loop for an incoming dict value
(already converted to `ObjectDict` entries `ves`): recursive merge when
`key in self and isinstance(self[key], ObjectDict)`, plain store otherwise. -/
def odMergeDictStep (self : Entries) (k : String) (ves : Entries) : Entries :=
  match lookupKey self k with
  | some (PyVal.dict true selfEs) => setKey self k (PyVal.dict true (odMerge selfEs ves))
  | _ => odSetItem self k (PyVal.dict true ves)
termination_by (sizeOf ves, 2)
decreasing_by
  apply Prod.Lex.right
  omega

end

theorem lookupKey_setKey_self (es : Entries) (k : String) (v : PyVal) :
    lookupKey (setKey es k v) k = some v := by
  induction es with
  | nil => simp [setKey, lookupKey]
  | cons kv rest ih =>
    obtain ⟨k0, v0⟩ := kv
    simp only [setKey]
    split
    · rename_i hk
      simp [lookupKey, hk]
    · rename_i hk
      simp [lookupKey, hk]
      exact ih

theorem lookupKey_setKey_ne (es : Entries) (k k2 : String) (v : PyVal) (h : k ≠ k2) :
    lookupKey (setKey es k v) k2 = lookupKey es k2 := by
  induction es with
  | nil => simp [setKey, lookupKey, h]
  | cons kv rest ih =>
    obtain ⟨k0, v0⟩ := kv
    simp only [setKey]
    split
    · rename_i hk
      subst hk
      simp [lookupKey, h]
    · simp only [lookupKey]
      split
      · rfl
      · exact ih

theorem lookupKey_setKey_isSome (es : Entries) (k k2 : String) (v : PyVal)
    (h : (lookupKey es k2).isSome) : (lookupKey (setKey es k v) k2).isSome := by
  by_cases hk : k = k2
  · subst hk
    simp [lookupKey_setKey_self]
  · rw [lookupKey_setKey_ne es k k2 v hk]
    exact h

theorem lookupKey_odMergeDictStep_isSome (self : Entries) (k0 : String) (ves : Entries)
    (k : String) (h : (lookupKey self k).isSome) :
    (lookupKey (odMergeDictStep self k0 ves) k).isSome := by
  rw [odMergeDictStep]
  split
  · exact lookupKey_setKey_isSome _ _ _ _ h
  · exact lookupKey_setKey_isSome _ _ _ _ h

theorem odConvert_idem (v : PyVal) : odConvert (odConvert v) = odConvert v := by
  match v with
  | .dict false es => simp [odConvert]
  | .dict true es => simp [odConvert]
  | .pystr s => simp [odConvert]
  | .pybool b => simp [odConvert]
  | .pyint n => simp [odConvert]
  | .pylist l => simp [odConvert]

/-- C5: merging an empty mapping is the identity on the tree, and in
particular merging an empty file layer and then an empty CLI layer onto any
defaults tree returns the defaults tree unchanged (deep equality is
definitional equality of the embedded trees). -/
theorem odMerge_empty_identity (t : Entries) :
    odMerge t [] = t ∧ odMerge (odMerge t []) [] = t := by
  constructor
  · simp [odMerge]
  · simp [odMerge]

/-- C4: attribute-style access mirrors item access on `ObjectDict`: reading
`t.k` returns exactly what `t[k]` returns, and `t.k = v` stores exactly what
`t[k] = v` stores, including the conversion of plain nested mappings
(`__setattr__` converts and then delegates to `__setitem__`, whose second
conversion is idempotent). -/
theorem odAttr_mirrors_item (t : Entries) (k : String) (v : PyVal) :
    odGetAttr t k = dictGetItem t k ∧ odSetAttr t k v = odSetItem t k v := by
  constructor
  · rfl
  · simp [odSetAttr, odSetItem, odConvert_idem]

/-- C10: reading attribute `t.k` on an `ObjectDict` whose key `k` is absent
fails with `KeyError k` (the error item access raises), not with the usual
`AttributeError`, because `__getattr__` forwards attribute access directly
to `self[key]`. -/
theorem odGetAttr_missing_keyError (t : Entries) (k : String)
    (h : lookupKey t k = none) :
    odGetAttr t k = Except.error (PyErr.keyError k) ∧
      odGetAttr t k ≠ Except.error (PyErr.attributeError k) := by
  constructor
  · simp [odGetAttr, dictGetItem, h]
  · simp [odGetAttr, dictGetItem, h]

theorem odGetAttr_missing_keyError_witness :
    lookupKey [("file", PyVal.pystr "fake.py")] "push" = none ∧
      odGetAttr [("file", PyVal.pystr "fake.py")] "push" =
        Except.error (PyErr.keyError "push") :=
  ⟨by simp [lookupKey], (odGetAttr_missing_keyError _ "push" (by simp [lookupKey])).1⟩

/-- C2: `ObjectDict.merge` never deletes a key: every key present in the
tree before `t.merge(m)` is still present afterwards, whatever the incoming
mapping contains.  The statement is universally quantified over both trees,
so it applies verbatim to every nested recursive merge performed by
`self[key].merge(value)`. -/
theorem odMerge_preserves_keys (t m : Entries) (k : String)
    (h : (lookupKey t k).isSome) : (lookupKey (odMerge t m) k).isSome := by
  induction m generalizing t with
  | nil => simpa [odMerge] using h
  | cons kv rest ih =>
    obtain ⟨k0, v0⟩ := kv
    match v0 with
    | PyVal.dict isO es =>
      rw [show odMerge t ((k0, PyVal.dict isO es) :: rest)
            = odMerge (odMergeDictStep t k0 (if isO then es else odInit es)) rest
          from by simp [odMerge]]
      exact ih _ (lookupKey_odMergeDictStep_isSome _ _ _ _ h)
    | PyVal.pystr s =>
      rw [show odMerge t ((k0, PyVal.pystr s) :: rest)
            = odMerge (odSetItem t k0 (PyVal.pystr s)) rest from by simp [odMerge]]
      exact ih _ (lookupKey_setKey_isSome _ _ _ _ h)
    | PyVal.pybool b =>
      rw [show odMerge t ((k0, PyVal.pybool b) :: rest)
            = odMerge (odSetItem t k0 (PyVal.pybool b)) rest from by simp [odMerge]]
      exact ih _ (lookupKey_setKey_isSome _ _ _ _ h)
    | PyVal.pyint n =>
      rw [show odMerge t ((k0, PyVal.pyint n) :: rest)
            = odMerge (odSetItem t k0 (PyVal.pyint n)) rest from by simp [odMerge]]
      exact ih _ (lookupKey_setKey_isSome _ _ _ _ h)
    | PyVal.pylist l =>
      rw [show odMerge t ((k0, PyVal.pylist l) :: rest)
            = odMerge (odSetItem t k0 (PyVal.pylist l)) rest from by simp [odMerge]]
      exact ih _ (lookupKey_setKey_isSome _ _ _ _ h)

theorem odMerge_preserves_keys_witness :
    (lookupKey [("push", PyVal.pybool false)] "push").isSome ∧
      (lookupKey (odMerge [("push", PyVal.pybool false)]
        [("push", PyVal.pybool true), ("file", PyVal.pystr "a.py")]) "push").isSome :=
  ⟨by simp [lookupKey],
    odMerge_preserves_keys _ _ "push" (by simp [lookupKey])⟩

/-- A value that is not a plain (non-`ObjectDict`) Python dict. -/
def notPlainDict : PyVal → Bool
  | PyVal.dict false _ => false
  | _ => true

/-- Every value stored directly in the tree is an `ObjectDict` whenever it is
a mapping at all — true of every `ObjectDict` built through the class API,
since every store operation converts plain dict values first. -/
def objDictValues (t : Entries) : Bool :=
  t.all fun kv => notPlainDict kv.2

/-- The keys of a Python dict are pairwise distinct. -/
abbrev nodupKeys (m : Entries) : Prop := (m.map Prod.fst).Nodup

theorem notPlainDict_odConvert (v : PyVal) : notPlainDict (odConvert v) = true := by
  match v with
  | .dict false es => simp [odConvert, notPlainDict]
  | .dict true es => simp [odConvert, notPlainDict]
  | .pystr s => simp [odConvert, notPlainDict]
  | .pybool b => simp [odConvert, notPlainDict]
  | .pyint n => simp [odConvert, notPlainDict]
  | .pylist l => simp [odConvert, notPlainDict]

theorem objDictValues_setKey (t : Entries) (k : String) (w : PyVal)
    (ht : objDictValues t = true) (hw : notPlainDict w = true) :
    objDictValues (setKey t k w) = true := by
  induction t with
  | nil => simp [setKey, objDictValues, hw]
  | cons kv rest ih =>
    obtain ⟨k0, v0⟩ := kv
    simp only [objDictValues, List.all_cons, Bool.and_eq_true] at ht
    simp only [setKey]
    split
    · simp [objDictValues, hw, ht.1, ht.2]
    · have := ih ht.2
      simp only [objDictValues, List.all_cons, Bool.and_eq_true]
      exact ⟨ht.1, this⟩

theorem objDictValues_lookup (t : Entries) (k : String) (b : Bool) (es : Entries)
    (ht : objDictValues t = true) (h : lookupKey t k = some (PyVal.dict b es)) :
    b = true := by
  induction t with
  | nil => simp [lookupKey] at h
  | cons kv rest ih =>
    obtain ⟨k0, v0⟩ := kv
    simp only [objDictValues, List.all_cons, Bool.and_eq_true] at ht
    simp only [lookupKey] at h
    split at h
    · cases h
      cases b
      · simp [notPlainDict] at ht
      · rfl
    · exact ih ht.2 h

/-- One iteration of the `ObjectDict.merge` loop (`helpers.py` lines 81-88),
for an arbitrary incoming value: dict values go through conversion and
`odMergeDictStep`, anything else is stored with `self[key] = value`. -/
def odMergeConsStep (t : Entries) (k0 : String) (v0 : PyVal) : Entries :=
  match v0 with
  | PyVal.dict isO es => odMergeDictStep t k0 (if isO then es else odInit es)
  | v => odSetItem t k0 v

theorem odMerge_cons (t : Entries) (k0 : String) (v0 : PyVal) (rest : Entries) :
    odMerge t ((k0, v0) :: rest) = odMerge (odMergeConsStep t k0 v0) rest := by
  match v0 with
  | PyVal.dict isO es => simp [odMerge, odMergeConsStep]
  | PyVal.pystr s => simp [odMerge, odMergeConsStep]
  | PyVal.pybool b => simp [odMerge, odMergeConsStep]
  | PyVal.pyint n => simp [odMerge, odMergeConsStep]
  | PyVal.pylist l => simp [odMerge, odMergeConsStep]

/-- The spec's deep-merge rule for one key, written from the spec's words:
given the incoming value (first argument) and the existing value (second
argument) at a key present in the incoming mapping, "if the existing value at
that key is itself a mapping and the incoming value is also a mapping, merge
recursively; otherwise the incoming value replaces the existing one
outright" (stored values go through the `ObjectDict` conversion, and the
recursive merge is the code's own merge of the two sub-trees). -/
def mergeRuleValue : Option PyVal → Option PyVal → Option PyVal
  | some (PyVal.dict bm esm), some (PyVal.dict _ est) =>
    some (PyVal.dict true (odMerge est (if bm then esm else odInit esm)))
  | some v, _ => some (odConvert v)
  | none, tv => tv

/-- Per-key reading of the spec's deep-merge rule for whole trees: keys not
present in the incoming mapping keep the existing value. -/
def mergedLookup (t m : Entries) (k : String) : Option PyVal :=
  mergeRuleValue (lookupKey m k) (lookupKey t k)

theorem lookupKey_not_mem (m : Entries) (k : String)
    (h : k ∉ m.map Prod.fst) : lookupKey m k = none := by
  induction m with
  | nil => simp [lookupKey]
  | cons kv rest ih =>
    obtain ⟨k0, v0⟩ := kv
    simp only [List.map_cons, List.mem_cons] at h
    push_neg at h
    simp only [lookupKey]
    split
    · rename_i hk
      exact absurd hk.symm h.1
    · exact ih h.2

theorem lookupKey_odMergeConsStep_ne (t : Entries) (k0 : String) (v0 : PyVal)
    (k : String) (h : k0 ≠ k) :
    lookupKey (odMergeConsStep t k0 v0) k = lookupKey t k := by
  match v0 with
  | PyVal.dict isO es =>
    simp only [odMergeConsStep]
    rw [odMergeDictStep]
    split
    · exact lookupKey_setKey_ne _ _ _ _ h
    · exact lookupKey_setKey_ne _ _ _ _ h
  | PyVal.pystr s => exact lookupKey_setKey_ne _ _ _ _ h
  | PyVal.pybool b => exact lookupKey_setKey_ne _ _ _ _ h
  | PyVal.pyint n => exact lookupKey_setKey_ne _ _ _ _ h
  | PyVal.pylist l => exact lookupKey_setKey_ne _ _ _ _ h

theorem objDictValues_odMergeConsStep (t : Entries) (k0 : String) (v0 : PyVal)
    (ht : objDictValues t = true) :
    objDictValues (odMergeConsStep t k0 v0) = true := by
  match v0 with
  | PyVal.dict isO es =>
    simp only [odMergeConsStep]
    rw [odMergeDictStep]
    split
    · exact objDictValues_setKey _ _ _ ht (by simp [notPlainDict])
    · exact objDictValues_setKey _ _ _ ht (notPlainDict_odConvert _)
  | PyVal.pystr s => exact objDictValues_setKey _ _ _ ht (notPlainDict_odConvert _)
  | PyVal.pybool b => exact objDictValues_setKey _ _ _ ht (notPlainDict_odConvert _)
  | PyVal.pyint n => exact objDictValues_setKey _ _ _ ht (notPlainDict_odConvert _)
  | PyVal.pylist l => exact objDictValues_setKey _ _ _ ht (notPlainDict_odConvert _)

theorem lookupKey_odMergeConsStep_self (t : Entries) (k0 : String) (v0 : PyVal)
    (ht : objDictValues t = true) :
    lookupKey (odMergeConsStep t k0 v0) k0 = mergeRuleValue (some v0) (lookupKey t k0) := by
  match v0 with
  | PyVal.dict isO esm =>
    simp only [odMergeConsStep]
    rw [odMergeDictStep]
    cases hl : lookupKey t k0 with
    | none =>
      cases isO <;>
        simp [odSetItem, lookupKey_setKey_self, mergeRuleValue, odConvert, odInit]
    | some w =>
      match w with
      | PyVal.dict b est =>
        have hb : b = true := objDictValues_lookup t k0 b est ht hl
        subst hb
        simp [lookupKey_setKey_self, mergeRuleValue]
      | PyVal.pystr s =>
        cases isO <;>
          simp [odSetItem, lookupKey_setKey_self, mergeRuleValue, odConvert, odInit]
      | PyVal.pybool b =>
        cases isO <;>
          simp [odSetItem, lookupKey_setKey_self, mergeRuleValue, odConvert, odInit]
      | PyVal.pyint n =>
        cases isO <;>
          simp [odSetItem, lookupKey_setKey_self, mergeRuleValue, odConvert, odInit]
      | PyVal.pylist l =>
        cases isO <;>
          simp [odSetItem, lookupKey_setKey_self, mergeRuleValue, odConvert, odInit]
  | PyVal.pystr s =>
    simp only [odMergeConsStep, odSetItem, lookupKey_setKey_self]
    cases hl : lookupKey t k0 <;> simp [mergeRuleValue]
  | PyVal.pybool b =>
    simp only [odMergeConsStep, odSetItem, lookupKey_setKey_self]
    cases hl : lookupKey t k0 <;> simp [mergeRuleValue]
  | PyVal.pyint n =>
    simp only [odMergeConsStep, odSetItem, lookupKey_setKey_self]
    cases hl : lookupKey t k0 <;> simp [mergeRuleValue]
  | PyVal.pylist l =>
    simp only [odMergeConsStep, odSetItem, lookupKey_setKey_self]
    cases hl : lookupKey t k0 <;> simp [mergeRuleValue]

theorem mergeRuleValue_none (tv : Option PyVal) : mergeRuleValue none tv = tv := by
  cases tv with
  | none => simp [mergeRuleValue]
  | some v => cases v <;> simp [mergeRuleValue]

/-- C1: `ObjectDict.merge` implements the spec's deep-merge rule.  For every
`ObjectDict` tree `t` (its direct mapping values are `ObjectDict`s, as the
class API guarantees) and every incoming Python mapping `m` (keys pairwise
distinct), the tree after `t.merge(m)` holds, at every key: for a key
present in `m` whose existing and incoming values are both mappings, the
recursive merge of the two sub-trees; for any other key present in `m`, the
incoming value (converted to `ObjectDict` when it is a plain mapping); and
for a key absent from `m`, the value it held before, unchanged.  Keys only
in `t` are kept, keys in both are overridden, keys only in `m` are added:
these are the three branches of `mergeRuleValue`, and they apply verbatim to
every recursive sub-merge because the statement is universally quantified
over both trees. -/
theorem odMerge_implements_deep_merge_rule (t m : Entries) (k : String)
    (hwf : objDictValues t = true) (hnd : nodupKeys m) :
    lookupKey (odMerge t m) k = mergedLookup t m k := by
  induction m generalizing t with
  | nil => simp [odMerge, mergedLookup, lookupKey, mergeRuleValue_none]
  | cons kv rest ih =>
    obtain ⟨k0, v0⟩ := kv
    have h1 := List.nodup_cons.mp (show (k0 :: rest.map Prod.fst).Nodup from hnd)
    rw [odMerge_cons]
    rw [ih (odMergeConsStep t k0 v0) (objDictValues_odMergeConsStep _ _ _ hwf) h1.2]
    by_cases hk : k0 = k
    · subst hk
      unfold mergedLookup
      rw [lookupKey_not_mem rest k0 h1.1, mergeRuleValue_none,
        lookupKey_odMergeConsStep_self t k0 v0 hwf]
      simp [lookupKey]
    · unfold mergedLookup
      rw [lookupKey_odMergeConsStep_ne t k0 v0 k hk]
      simp [lookupKey, hk]

theorem odMerge_implements_deep_merge_rule_witness :
    objDictValues
        [("bump", PyVal.dict true [("part", PyVal.pystr "patch")]),
         ("push", PyVal.pybool false)] = true ∧
      nodupKeys
        [("bump", PyVal.dict false [("suffix", PyVal.pystr "dev")]),
         ("push", PyVal.pybool true)] ∧
      lookupKey
          (odMerge
            [("bump", PyVal.dict true [("part", PyVal.pystr "patch")]),
             ("push", PyVal.pybool false)]
            [("bump", PyVal.dict false [("suffix", PyVal.pystr "dev")]),
             ("push", PyVal.pybool true)]) "bump" =
        mergedLookup
          [("bump", PyVal.dict true [("part", PyVal.pystr "patch")]),
           ("push", PyVal.pybool false)]
          [("bump", PyVal.dict false [("suffix", PyVal.pystr "dev")]),
           ("push", PyVal.pybool true)] "bump" :=
  ⟨by decide, by decide,
    odMerge_implements_deep_merge_rule _ _ "bump" (by decide) (by decide)⟩

mutual

/-- Full reachability reading of the nesting invariant: every mapping
reachable inside the value — descending through mapping values and through
list elements — is an `ObjectDict`. -/
def reachAllObj : PyVal → Bool
  | PyVal.dict b es => b && reachAllObjEntries es
  | PyVal.pylist l => reachAllObjList l
  | _ => true

def reachAllObjEntries : Entries → Bool
  | [] => true
  | (_, v) :: rest => reachAllObj v && reachAllObjEntries rest

def reachAllObjList : List PyVal → Bool
  | [] => true
  | v :: rest => reachAllObj v && reachAllObjList rest

end

mutual

/-- Mapping-value reading of the nesting invariant: every mapping stored as
the value of a key, recursively through mapping values, is an `ObjectDict`.
Values inside lists are not inspected, because the `ObjectDict` store
operations never convert inside non-mapping containers. -/
def wfVal : PyVal → Bool
  | PyVal.dict b es => b && wfEntries es
  | _ => true

def wfEntries : Entries → Bool
  | [] => true
  | (_, v) :: rest => wfVal v && wfEntries rest

end

mutual

/-- A value acceptable as input to an `ObjectDict` store operation: any
`ObjectDict` already embedded in it is well-formed (as every `ObjectDict`
built through the class API is); plain mappings are unconstrained. -/
def okVal : PyVal → Bool
  | PyVal.dict true es => wfEntries es
  | PyVal.dict false es => okEntries es
  | _ => true

def okEntries : Entries → Bool
  | [] => true
  | (_, v) :: rest => okVal v && okEntries rest

end

mutual

theorem okVal_of_wfVal (v : PyVal) (h : wfVal v = true) : okVal v = true := by
  match v with
  | PyVal.dict true es =>
    simp only [wfVal, Bool.and_eq_true] at h
    simpa [okVal] using h.2
  | PyVal.dict false es => simp [wfVal] at h
  | PyVal.pystr s => simp [okVal]
  | PyVal.pybool b => simp [okVal]
  | PyVal.pyint n => simp [okVal]
  | PyVal.pylist l => simp [okVal]

theorem okEntries_of_wfEntries (es : Entries) (h : wfEntries es = true) :
    okEntries es = true := by
  match es with
  | [] => simp [okEntries]
  | (k, v) :: rest =>
    simp only [wfEntries, Bool.and_eq_true] at h
    simp only [okEntries, Bool.and_eq_true]
    exact ⟨okVal_of_wfVal v h.1, okEntries_of_wfEntries rest h.2⟩

end

theorem wfEntries_setKey (es : Entries) (k : String) (w : PyVal)
    (hes : wfEntries es = true) (hw : wfVal w = true) :
    wfEntries (setKey es k w) = true := by
  induction es with
  | nil => simp [setKey, wfEntries, hw]
  | cons kv rest ih =>
    obtain ⟨k0, v0⟩ := kv
    simp only [wfEntries, Bool.and_eq_true] at hes
    simp only [setKey]
    split
    · simp only [wfEntries, Bool.and_eq_true]
      exact ⟨hw, hes.2⟩
    · simp only [wfEntries, Bool.and_eq_true]
      exact ⟨hes.1, ih hes.2⟩

theorem wfVal_lookupKey (t : Entries) (k : String) (v : PyVal)
    (ht : wfEntries t = true) (h : lookupKey t k = some v) : wfVal v = true := by
  induction t with
  | nil => simp [lookupKey] at h
  | cons kv rest ih =>
    obtain ⟨k0, v0⟩ := kv
    simp only [wfEntries, Bool.and_eq_true] at ht
    simp only [lookupKey] at h
    split at h
    · cases h
      exact ht.1
    · exact ih ht.2 h

mutual

theorem wfVal_odConvert (v : PyVal) (h : okVal v = true) :
    wfVal (odConvert v) = true := by
  match v with
  | PyVal.dict false es =>
    simp only [okVal] at h
    have := wfEntries_odUpdateAux [] es (by simp [wfEntries]) h
    simp only [odConvert, wfVal, Bool.true_and]
    exact this
  | PyVal.dict true es =>
    simp only [okVal] at h
    simpa [odConvert, wfVal] using h
  | PyVal.pystr s => simp [odConvert, wfVal]
  | PyVal.pybool b => simp [odConvert, wfVal]
  | PyVal.pyint n => simp [odConvert, wfVal]
  | PyVal.pylist l => simp [odConvert, wfVal]

theorem wfEntries_odUpdateAux (self m : Entries)
    (hs : wfEntries self = true) (hm : okEntries m = true) :
    wfEntries (odUpdateAux self m) = true := by
  match m with
  | [] => simpa [odUpdateAux] using hs
  | (k, v) :: rest =>
    simp only [okEntries, Bool.and_eq_true] at hm
    simp only [odUpdateAux]
    exact wfEntries_odUpdateAux (setKey self k (odConvert v)) rest
      (wfEntries_setKey self k (odConvert v) hs (wfVal_odConvert v hm.1)) hm.2

end

theorem wfEntries_odMerge (self m : Entries)
    (hs : wfEntries self = true) (hm : okEntries m = true) :
    wfEntries (odMerge self m) = true := by
  match m with
  | [] => simpa [odMerge] using hs
  | (k0, PyVal.dict isO esm) :: rest =>
    simp only [okEntries, Bool.and_eq_true] at hm
    rw [odMerge_cons]
    have hves : wfEntries (if isO then esm else odInit esm) = true := by
      cases isO with
      | true => simpa [okVal] using hm.1
      | false =>
        have hok : okEntries esm = true := by simpa [okVal] using hm.1
        simpa [odInit] using
          wfEntries_odUpdateAux [] esm (by simp [wfEntries]) hok
    have hstep : wfEntries (odMergeConsStep self k0 (PyVal.dict isO esm)) = true := by
      simp only [odMergeConsStep]
      rw [odMergeDictStep]
      split
      · rename_i selfEs heq
        have hselfEs : wfEntries selfEs = true := by
          have := wfVal_lookupKey self k0 _ hs heq
          simpa [wfVal] using this
        have hrec := wfEntries_odMerge selfEs (if isO then esm else odInit esm)
          hselfEs (okEntries_of_wfEntries _ hves)
        exact wfEntries_setKey _ _ _ hs (by simpa [wfVal] using hrec)
      · simp only [odSetItem, odConvert]
        exact wfEntries_setKey _ _ _ hs (by simpa [wfVal] using hves)
    exact wfEntries_odMerge (odMergeConsStep self k0 (PyVal.dict isO esm)) rest hstep hm.2
  | (k0, PyVal.pystr s) :: rest =>
    simp only [okEntries, Bool.and_eq_true] at hm
    rw [odMerge_cons]
    refine wfEntries_odMerge _ rest ?_ hm.2
    simp only [odMergeConsStep, odSetItem]
    exact wfEntries_setKey _ _ _ hs (wfVal_odConvert _ (by simp [okVal]))
  | (k0, PyVal.pybool b) :: rest =>
    simp only [okEntries, Bool.and_eq_true] at hm
    rw [odMerge_cons]
    refine wfEntries_odMerge _ rest ?_ hm.2
    simp only [odMergeConsStep, odSetItem]
    exact wfEntries_setKey _ _ _ hs (wfVal_odConvert _ (by simp [okVal]))
  | (k0, PyVal.pyint n) :: rest =>
    simp only [okEntries, Bool.and_eq_true] at hm
    rw [odMerge_cons]
    refine wfEntries_odMerge _ rest ?_ hm.2
    simp only [odMergeConsStep, odSetItem]
    exact wfEntries_setKey _ _ _ hs (wfVal_odConvert _ (by simp [okVal]))
  | (k0, PyVal.pylist l) :: rest =>
    simp only [okEntries, Bool.and_eq_true] at hm
    rw [odMerge_cons]
    refine wfEntries_odMerge _ rest ?_ hm.2
    simp only [odMergeConsStep, odSetItem]
    exact wfEntries_setKey _ _ _ hs (wfVal_odConvert _ (by simp [okVal]))
termination_by sizeOf m
decreasing_by
  all_goals simp
  all_goals try split
  all_goals try omega
  all_goals have := sizeOf_odInit_le esm
  all_goals omega

/-- C9 counterexample: construction does not establish the invariant under
its full-reachability reading.  Building an `ObjectDict` from the plain
input mapping whose key holds a list containing a plain dict leaves that
plain dict reachable inside the constructed tree: store operations convert
mapping values only, never mappings nested inside non-mapping containers
such as lists. -/
theorem odInit_reachable_plain_dict_counterexample :
    reachAllObjEntries (odInit [("files", PyVal.pylist [PyVal.dict false []])]) = false := by
  decide

/-- C9 (amended): every `ObjectDict` operation — construction, `update`,
item assignment, attribute assignment and `merge` — converts plain mapping
values to `ObjectDict` before storing them, so every mapping stored as the
value of a key inside the result, recursively through mapping values (but
not through values nested inside lists), is an `ObjectDict`.  Inputs are
arbitrary Python values whose already-`ObjectDict` parts are well-formed,
as every `ObjectDict` produced by the class API is. -/
theorem objectDict_operations_establish_dict_value_invariant
    (t m : Entries) (k : String) (v : PyVal)
    (ht : wfEntries t = true) (hv : okVal v = true) (hm : okEntries m = true) :
    wfEntries (odInit m) = true ∧
      wfEntries (odUpdate t m) = true ∧
      wfEntries (odSetItem t k v) = true ∧
      wfEntries (odSetAttr t k v) = true ∧
      wfEntries (odMerge t m) = true := by
  refine ⟨?_, ?_, ?_, ?_, ?_⟩
  · simpa [odInit] using wfEntries_odUpdateAux [] m (by simp [wfEntries]) hm
  · simpa [odUpdate] using wfEntries_odUpdateAux t m ht hm
  · simpa [odSetItem] using wfEntries_setKey t k (odConvert v) ht (wfVal_odConvert v hv)
  · simpa [odSetAttr, odSetItem] using
      wfEntries_setKey t k (odConvert (odConvert v)) ht
        (wfVal_odConvert (odConvert v) (okVal_of_wfVal _ (wfVal_odConvert v hv)))
  · exact wfEntries_odMerge t m ht hm

theorem objectDict_operations_establish_dict_value_invariant_witness :
    wfEntries [("bump", PyVal.dict true [("part", PyVal.pystr "patch")])] = true ∧
      okVal (PyVal.dict false [("vcs", PyVal.pystr "git")]) = true ∧
      okEntries [("bump", PyVal.dict false [("suffix", PyVal.pystr "dev")])] = true ∧
      (wfEntries (odInit [("bump", PyVal.dict false [("suffix", PyVal.pystr "dev")])]) = true ∧
        wfEntries (odUpdate [("bump", PyVal.dict true [("part", PyVal.pystr "patch")])]
          [("bump", PyVal.dict false [("suffix", PyVal.pystr "dev")])]) = true ∧
        wfEntries (odSetItem [("bump", PyVal.dict true [("part", PyVal.pystr "patch")])]
          "push" (PyVal.dict false [("vcs", PyVal.pystr "git")])) = true ∧
        wfEntries (odSetAttr [("bump", PyVal.dict true [("part", PyVal.pystr "patch")])]
          "push" (PyVal.dict false [("vcs", PyVal.pystr "git")])) = true ∧
        wfEntries (odMerge [("bump", PyVal.dict true [("part", PyVal.pystr "patch")])]
          [("bump", PyVal.dict false [("suffix", PyVal.pystr "dev")])]) = true) :=
  ⟨by decide, by decide, by decide,
    objectDict_operations_establish_dict_value_invariant
      [("bump", PyVal.dict true [("part", PyVal.pystr "patch")])]
      [("bump", PyVal.dict false [("suffix", PyVal.pystr "dev")])]
      "push" (PyVal.dict false [("vcs", PyVal.pystr "git")])
      (by decide) (by decide) (by decide)⟩

/-- Result of running one external command: its exit status and the output
it wrote (as captured by `subprocess.check_output`). -/
structure CmdResult where
  exitcode : Nat
  captured : String
deriving Repr, DecidableEq

/-- `subprocess.CalledProcessError(returncode, cmd)` with its `output`
attribute, as raised by `check_output` (`helpers.py` lines 13-25). -/
structure CalledProcessError where
  cmd : List String
  returncode : Nat
  output : String
deriving Repr, DecidableEq

/-- The `command` argument of `execute`: a command string, a flat list or
tuple of parts, or a list of argument vectors. -/
inductive PyCommandInput where
  | str (s : String)
  | flat (parts : List String)
  | nested (cmds : List (List String))
deriving Repr, DecidableEq

/-- Python truthiness of the `command` argument: `if not command: return`
(`helpers.py` lines 30-31). -/
def isEmptyCommand : PyCommandInput → Bool
  | PyCommandInput.str s => s == ""
  | PyCommandInput.flat parts => parts.isEmpty
  | PyCommandInput.nested cmds => cmds.isEmpty

/-- Python `str.split` with a one-character separator, on the character
list of the string: the empty string yields one empty piece, and a
separator at either end contributes an empty piece. -/
def splitOnChar (sep : Char) : List Char → List (List Char)
  | [] => [[]]
  | c :: rest =>
    match splitOnChar sep rest with
    | [] => [[]]
    | line :: more =>
      if c = sep then [] :: line :: more else (c :: line) :: more

/-- Python truthiness of `cmd.strip()`: the stripped string is empty
exactly when every character is whitespace. -/
def isBlank (l : List Char) : Bool := l.all Char.isWhitespace

/-- Command-preparation phase of `execute` (`helpers.py` lines 32-39).
`shlexSplit` stands for the external `shlex.split` collaborator and `fmt`
for Python `str.format(**replacements)`; both are parameters of the
embedding.  A flat list or tuple is wrapped into a single argument vector
and each part formatted; a list of vectors has each part formatted; a
string is split on newlines, blank lines are dropped, and each remaining
line is formatted and then tokenized. -/
def prepareCommands (shlexSplit : String → List String)
    (fmt : String → List (String × String) → String)
    (command : PyCommandInput) (repl : List (String × String)) :
    List (List String) :=
  match command with
  | PyCommandInput.flat parts => [parts.map (fun p => fmt p repl)]
  | PyCommandInput.nested cmds => cmds.map (fun c => c.map (fun p => fmt p repl))
  | PyCommandInput.str s =>
    ((splitOnChar '\n' s.data).filter (fun c => !(isBlank c))).map
      (fun c => shlexSplit (fmt (String.mk c) repl))

/-- `check_output` (`helpers.py` lines 13-25): captured output on exit
status zero, `CalledProcessError` otherwise.  `run` models the external
subprocess collaborator. -/
def checkOutput (run : List String → CmdResult) (cmd : List String) :
    Except CalledProcessError String :=
  let r := run cmd
  if r.exitcode = 0 then Except.ok r.captured
  else Except.error { cmd := cmd, returncode := r.exitcode, output := r.captured }

/-- The capture-mode loop of `execute` (`helpers.py` lines 42-53 with
`verbose=False`, `dryrun=False`): each command is handed to `check_output`;
a `CalledProcessError` is caught, logged and printed, and the loop
continues with the next command and an unchanged accumulator.  Returns the
commands run, in order, paired with the accumulated output (the first
component is observational instrumentation; the source returns only the
output). -/
def captureLoop (run : List String → CmdResult) :
    List (List String) → String → List (List String) × String
  | [], acc => ([], acc)
  | cmd :: rest, acc =>
    let next :=
      match checkOutput run cmd with
      | Except.ok o => captureLoop run rest (acc ++ o)
      | Except.error _ => captureLoop run rest acc
    (cmd :: next.1, next.2)

/-- The verbose-mode loop (`helpers.py` lines 45-46): `subprocess.check_call`
raises on the first non-zero exit and nothing catches it, so later commands
do not run; `output` is never extended in this mode. -/
def verboseLoop (run : List String → CmdResult) :
    List (List String) → Except CalledProcessError Unit × List (List String)
  | [] => (Except.ok (), [])
  | cmd :: rest =>
    let r := run cmd
    if r.exitcode = 0 then
      let next := verboseLoop run rest
      (next.1, cmd :: next.2)
    else (Except.error { cmd := cmd, returncode := r.exitcode, output := r.captured }, [cmd])

/-- How a call to `execute` finishes: the early `return` (Python `None`) for
an empty command, a normal return of the accumulated output, or an uncaught
exception. -/
inductive ExecuteResult where
  | retNone
  | ok (output : String)
  | raised (e : CalledProcessError)
deriving Repr, DecidableEq

/-- `execute` (`helpers.py` lines 28-53), paired with the list of commands
actually handed to the subprocess layer, in order (instrumentation; the
source returns only the first component's value). -/
def execute (run : List String → CmdResult) (shlexSplit : String → List String)
    (fmt : String → List (String × String) → String)
    (command : PyCommandInput) (repl : List (String × String))
    (verbose dryrun : Bool) : ExecuteResult × List (List String) :=
  if isEmptyCommand command then (ExecuteResult.retNone, [])
  else
    let commands := prepareCommands shlexSplit fmt command repl
    if dryrun then (ExecuteResult.ok "", [])
    else if verbose then
      match verboseLoop run commands with
      | (Except.ok _, tr) => (ExecuteResult.ok "", tr)
      | (Except.error e, tr) => (ExecuteResult.raised e, tr)
    else
      let r := captureLoop run commands ""
      (ExecuteResult.ok r.2, r.1)

theorem captureLoop_trace (run : List String → CmdResult)
    (cmds : List (List String)) (acc : String) :
    (captureLoop run cmds acc).1 = cmds := by
  induction cmds generalizing acc with
  | nil => simp [captureLoop]
  | cons cmd rest ih =>
    simp only [captureLoop]
    cases checkOutput run cmd with
    | ok o => simp [ih]
    | error e => simp [ih]

/-- C3: evidence of the divergence between the spec and `execute`.  In the
default capture mode, a command exiting non-zero does not abort the run:
with a two-line command whose first line fails (exit code 1), `execute`
still runs the second command, accumulates its output, and returns
normally (`ExecuteResult.ok`) instead of raising — the `CalledProcessError`
is caught, logged, printed and swallowed (`helpers.py` lines 48-52). -/
theorem execute_swallows_failure_and_continues :
    execute
      (fun cmd => if cmd = ["badcmd"] then { exitcode := 1, captured := "boom" }
        else { exitcode := 0, captured := "done" })
      (fun s => [s]) (fun s _ => s)
      (PyCommandInput.str "badcmd\ngoodcmd") [] false false
      = (ExecuteResult.ok "done", [["badcmd"], ["goodcmd"]]) := by
  decide

/-- C7: with `dryrun=False` (capture mode), `execute` hands to the
subprocess layer exactly the prepared argument vectors, in order: for a
non-empty string command, one vector per non-blank line (blank lines
contribute no command), each line formatted with the replacements first and
tokenized by `shlex.split` second; for a non-empty flat list command, a
single vector with each part formatted. -/
theorem execute_splits_and_substitutes (run : List String → CmdResult)
    (sp : String → List String) (fmt : String → List (String × String) → String)
    (repl : List (String × String)) (s : String) (parts : List String)
    (hs : s ≠ "") (hp : parts ≠ []) :
    (execute run sp fmt (PyCommandInput.str s) repl false false).2 =
      ((splitOnChar '\n' s.data).filter (fun c => !(isBlank c))).map
        (fun c => sp (fmt (String.mk c) repl)) ∧
      (execute run sp fmt (PyCommandInput.flat parts) repl false false).2 =
        [parts.map (fun p => fmt p repl)] := by
  constructor
  · simp [execute, isEmptyCommand, hs, prepareCommands, captureLoop_trace]
  · simp [execute, isEmptyCommand, hp, prepareCommands, captureLoop_trace]

theorem execute_splits_and_substitutes_witness :
    "firstcmd\n\nsecondcmd" ≠ "" ∧ ["git", "push"] ≠ ([] : List String) ∧
      ((execute (fun _ => { exitcode := 0, captured := "" }) (fun s => [s])
          (fun s _ => s) (PyCommandInput.str "firstcmd\n\nsecondcmd") [] false false).2 =
        ((splitOnChar '\n' ("firstcmd\n\nsecondcmd").data).filter
            (fun c => !(isBlank c))).map
          (fun c => (fun s => [s]) ((fun s (_ : List (String × String)) => s)
            (String.mk c) [])) ∧
        (execute (fun _ => { exitcode := 0, captured := "" }) (fun s => [s])
            (fun s _ => s) (PyCommandInput.flat ["git", "push"]) [] false false).2 =
          [["git", "push"].map (fun p => (fun s (_ : List (String × String)) => s) p [])]) :=
  ⟨by decide, by decide,
    execute_splits_and_substitutes (fun _ => { exitcode := 0, captured := "" })
      (fun s => [s]) (fun s _ => s) [] "firstcmd\n\nsecondcmd" ["git", "push"]
      (by decide) (by decide)⟩

/-- Modelled from the spec: `bumpr/config.py` (`Config.override_from_args`)
is not part of the sources, only its tests are; the spec describes each
boolean flag pair (`--push`/`--no-push`, `--commit`/`--no-commit`, ...) as
a tri-state: neither form supplied, the positive form supplied, or the
negative form supplied. -/
inductive FlagArg where
  | unset
  | pos
  | neg
deriving Repr, DecidableEq

/-- Modelled from the spec: the optional boolean carried by a flag pair at
the CLI-parsing boundary — absent when neither form was supplied, `true`
for the positive form, `false` for the negative form. -/
def cliBoolValue : FlagArg → Option Bool
  | FlagArg.unset => none
  | FlagArg.pos => some true
  | FlagArg.neg => some false

/-- Modelled from the spec: the command-line override step for one boolean
flag pair on the resolved tree — "if neither the positive nor negative flag
form was explicitly supplied, the existing value in `tree` is left
untouched; if exactly one form was supplied, it sets the corresponding
boolean explicitly, regardless of what the file layer said". -/
def overrideBoolFlag (tree : Entries) (k : String) (arg : FlagArg) : Entries :=
  match cliBoolValue arg with
  | none => tree
  | some b => odSetItem tree k (PyVal.pybool b)

/-- C6: for every boolean flag pair, applied to the tree already holding
defaults plus the file layer (`odMerge d f`): when neither flag form is
supplied the tree is left untouched, so the resolved boolean is whatever
defaults-plus-file produced; when exactly one form is supplied the resolved
boolean is the value that form sets, whatever the file layer said (the
statement quantifies over every defaults and file layer). -/
theorem cli_tristate_override (d f : Entries) (k : String) (arg : FlagArg) :
    (arg = FlagArg.unset → overrideBoolFlag (odMerge d f) k arg = odMerge d f) ∧
      (∀ b, cliBoolValue arg = some b →
        lookupKey (overrideBoolFlag (odMerge d f) k arg) k = some (PyVal.pybool b)) := by
  constructor
  · intro h
    subst h
    rfl
  · intro b hb
    unfold overrideBoolFlag
    rw [hb]
    simp [odSetItem, odConvert, lookupKey_setKey_self]

theorem cli_tristate_override_witness :
    cliBoolValue FlagArg.pos = some true ∧
      lookupKey
          (overrideBoolFlag
            (odMerge [("push", PyVal.pybool false)] [("push", PyVal.pybool false)])
            "push" FlagArg.pos) "push" =
        some (PyVal.pybool true) :=
  ⟨rfl,
    (cli_tristate_override [("push", PyVal.pybool false)] [("push", PyVal.pybool false)]
      "push" FlagArg.pos).2 true rfl⟩

/-- Modelled from the spec: `bumpr/version.py` is not part of the sources.
The spec's `Version` value type: a numeric triplet with an optional textual
suffix label and an optional suffix counter, where the counter is only
meaningful when the suffix is set. -/
structure Version where
  major : Nat
  minor : Nat
  patch : Nat
  suffix : Option String
  suffix_number : Option Nat
deriving Repr, DecidableEq

/-- An ASCII decimal digit. -/
def isDigitChar (c : Char) : Bool := 48 ≤ c.toNat && c.toNat ≤ 57

/-- Numeric value of a decimal digit character. -/
def charDigit (c : Char) : Nat := c.toNat - 48

/-- Decimal digit character of a digit value. -/
def digitChar (d : Nat) : Char := Char.ofNat (48 + d)

/-- Numeric value of a big-endian decimal digit string. -/
def charsToNat (ds : List Char) : Nat :=
  Nat.ofDigits 10 ((ds.map charDigit).reverse)

/-- Little-endian decimal digits of `n`, with explicit fuel so that the
recursion is structural. -/
def natDigitsAux : Nat → Nat → List Nat
  | 0, _ => []
  | _ + 1, 0 => []
  | fuel + 1, n + 1 => (n + 1) % 10 :: natDigitsAux fuel ((n + 1) / 10)

/-- Canonical big-endian decimal rendering of a natural number. -/
def natToChars (n : Nat) : List Char :=
  if n = 0 then ['0'] else ((natDigitsAux n n).map digitChar).reverse

/-- A canonical decimal numeral: non-empty, all digits, and no leading zero
except for the numeral `0` itself. -/
def canonicalDigits (ds : List Char) : Bool :=
  !ds.isEmpty && ds.all isDigitChar && (ds == ['0'] || !(ds.head? == some '0'))

/-- Modelled from the spec: the optional suffix segment accepted by `Parse`
after the dash — "a non-numeric label optionally followed immediately by a
trailing integer" (e.g. `dev`, `dev4`).  The label is the maximal non-digit
prefix; a trailing numeral, when present, must be canonical. -/
def parseSuffixChars (l : List Char) : Option (String × Option Nat) :=
  let lab := l.takeWhile (fun c => !(isDigitChar c))
  let ds := l.dropWhile (fun c => !(isDigitChar c))
  if lab.isEmpty then none
  else if ds.isEmpty then some (String.mk lab, none)
  else if canonicalDigits ds then some (String.mk lab, some (charsToNat ds))
  else none

/-- Modelled from the spec: `Parse` on the character list — accepts
`MAJOR.MINOR.PATCH` with an optional `-SUFFIXNUMBER` segment, where the
three components are (canonical) decimal numerals, and fails on anything
malformed. -/
def parseVersionChars (l : List Char) : Option Version :=
  let maj := l.takeWhile isDigitChar
  match l.dropWhile isDigitChar with
  | '.' :: l2 =>
    let minr := l2.takeWhile isDigitChar
    match l2.dropWhile isDigitChar with
    | '.' :: l3 =>
      let pat := l3.takeWhile isDigitChar
      if canonicalDigits maj && canonicalDigits minr && canonicalDigits pat then
        match l3.dropWhile isDigitChar with
        | [] =>
          some { major := charsToNat maj, minor := charsToNat minr,
                 patch := charsToNat pat, suffix := none, suffix_number := none }
        | '-' :: sfx =>
          match parseSuffixChars sfx with
          | some (lab, num) =>
            some { major := charsToNat maj, minor := charsToNat minr,
                   patch := charsToNat pat, suffix := some lab, suffix_number := num }
          | none => none
        | _ => none
      else none
    | _ => none
  | _ => none

/-- Modelled from the spec: `Parse(text) → Version`. -/
def parseVersion (s : String) : Option Version := parseVersionChars s.data

/-- Modelled from the spec: the rendered suffix counter — empty when
`suffix_number` is unset. -/
def suffixNumChars : Option Nat → List Char
  | none => []
  | some n => natToChars n

/-- Modelled from the spec: the rendered suffix segment — omitted entirely
when `suffix` is unset, and without the trailing number when
`suffix_number` is unset. -/
def suffixChars (v : Version) : List Char :=
  match v.suffix with
  | none => []
  | some lab => '-' :: (lab.data ++ suffixNumChars v.suffix_number)

/-- Modelled from the spec: the characters of `Render`. -/
def renderChars (v : Version) : List Char :=
  natToChars v.major ++ '.' ::
    (natToChars v.minor ++ '.' :: (natToChars v.patch ++ suffixChars v))

/-- Modelled from the spec: `Render() → string`, the inverse of `Parse`. -/
def renderVersion (v : Version) : String := String.mk (renderChars v)

theorem natDigitsAux_eq (fuel n : Nat) (h : n ≤ fuel) :
    natDigitsAux fuel n = Nat.digits 10 n := by
  induction fuel generalizing n with
  | zero =>
    have : n = 0 := by omega
    subst this
    simp [natDigitsAux]
  | succ fuel ih =>
    match n with
    | 0 => simp [natDigitsAux]
    | n + 1 =>
      rw [natDigitsAux, Nat.digits_def' (by norm_num : (1 : Nat) < 10) (Nat.succ_pos n)]
      congr 1
      have hlt : (n + 1) / 10 < n + 1 := Nat.div_lt_self (Nat.succ_pos n) (by norm_num)
      exact ih ((n + 1) / 10) (by omega)

theorem digitChar_charDigit (c : Char) (h : isDigitChar c = true) :
    digitChar (charDigit c) = c := by
  simp only [isDigitChar, Bool.and_eq_true, decide_eq_true_eq] at h
  have he : 48 + (c.toNat - 48) = c.toNat := by omega
  simp [digitChar, charDigit, he, Char.ofNat_toNat]

theorem charDigit_lt (c : Char) (h : isDigitChar c = true) : charDigit c < 10 := by
  simp only [isDigitChar, Bool.and_eq_true, decide_eq_true_eq] at h
  simp only [charDigit]
  omega

theorem charDigit_ne_zero (c : Char) (h : isDigitChar c = true) (hne : c ≠ '0') :
    charDigit c ≠ 0 := by
  simp only [isDigitChar, Bool.and_eq_true, decide_eq_true_eq] at h
  intro h0
  apply hne
  have ht : c.toNat = 48 := by
    simp only [charDigit] at h0
    omega
  calc c = Char.ofNat c.toNat := (Char.ofNat_toNat c).symm
    _ = Char.ofNat 48 := by rw [ht]
    _ = '0' := by decide

theorem natToChars_charsToNat (ds : List Char) (h : canonicalDigits ds = true) :
    natToChars (charsToNat ds) = ds := by
  simp only [canonicalDigits, Bool.and_eq_true, Bool.or_eq_true] at h
  obtain ⟨⟨hne, hall⟩, hcanon⟩ := h
  by_cases h0 : ds = ['0']
  · subst h0
    decide
  · have hhead : ds.head? ≠ some '0' := by
      rcases hcanon with hc | hc
      · exact absurd (by simpa using hc) h0
      · simpa using hc
    obtain ⟨c, cs, rfl⟩ : ∃ c cs, ds = c :: cs := by
      cases ds with
      | nil => simp at hne
      | cons c cs => exact ⟨c, cs, rfl⟩
    have hcne : c ≠ '0' := by simpa using hhead
    have hallmem := List.all_eq_true.mp hall
    have hL : ((c :: cs).map charDigit).reverse
        = (cs.map charDigit).reverse ++ [charDigit c] := by simp
    have w1 : ∀ d ∈ ((c :: cs).map charDigit).reverse, d < 10 := by
      intro d hd
      rw [List.mem_reverse, List.mem_map] at hd
      obtain ⟨x, hx, rfl⟩ := hd
      exact charDigit_lt x (hallmem x hx)
    have w2 : ∀ hx : ((c :: cs).map charDigit).reverse ≠ [],
        (((c :: cs).map charDigit).reverse).getLast hx ≠ 0 := by
      intro hx
      have h1 : (((c :: cs).map charDigit).reverse).getLast? = some (charDigit c) := by
        rw [hL]
        exact List.getLast?_concat _
      have h2 := List.getLast?_eq_getLast (((c :: cs).map charDigit).reverse) hx
      rw [h1] at h2
      rw [(Option.some.inj h2).symm]
      exact charDigit_ne_zero c (hallmem c (List.mem_cons_self c cs)) hcne
    have hd := Nat.digits_ofDigits 10 (by norm_num) (((c :: cs).map charDigit).reverse) w1 w2
    have hnz : Nat.ofDigits 10 (((c :: cs).map charDigit).reverse) ≠ 0 := by
      intro hz
      rw [hz, Nat.digits_zero] at hd
      rw [hL] at hd
      exact absurd hd.symm (by simp)
    show natToChars (Nat.ofDigits 10 (((c :: cs).map charDigit).reverse)) = c :: cs
    rw [natToChars, if_neg hnz, natDigitsAux_eq _ _ (le_refl _), hd]
    rw [List.map_reverse, List.reverse_reverse, List.map_map]
    have hmap : (c :: cs).map (digitChar ∘ charDigit) = (c :: cs).map id :=
      List.map_congr_left (fun a ha => digitChar_charDigit a (hallmem a ha))
    rw [hmap, List.map_id]

theorem parseSuffixChars_roundtrip (l : List Char) (lab : String) (num : Option Nat)
    (h : parseSuffixChars l = some (lab, num)) :
    lab.data ++ suffixNumChars num = l := by
  simp only [parseSuffixChars] at h
  split at h
  · exact absurd h (by simp)
  · split at h
    · rcases Option.some.inj h with ⟨rfl, rfl⟩
      rename_i hds
      have he : l.dropWhile (fun c => !(isDigitChar c)) = [] :=
        List.isEmpty_iff.mp hds
      calc (String.mk (l.takeWhile (fun c => !(isDigitChar c)))).data ++
            suffixNumChars none
          = l.takeWhile (fun c => !(isDigitChar c)) ++
              l.dropWhile (fun c => !(isDigitChar c)) := by
            rw [he]
            rfl
        _ = l := List.takeWhile_append_dropWhile _ _
    · split at h
      · rcases Option.some.inj h with ⟨rfl, rfl⟩
        rename_i hcanon
        calc (String.mk (l.takeWhile (fun c => !(isDigitChar c)))).data ++
              suffixNumChars (some (charsToNat (l.dropWhile (fun c => !(isDigitChar c)))))
            = l.takeWhile (fun c => !(isDigitChar c)) ++
                l.dropWhile (fun c => !(isDigitChar c)) := by
              show _ ++ natToChars (charsToNat _) = _
              rw [natToChars_charsToNat _ hcanon]
        _ = l := List.takeWhile_append_dropWhile _ _
      · exact absurd h (by simp)

theorem parseVersionChars_roundtrip (l : List Char) (v : Version)
    (h : parseVersionChars l = some v) : renderChars v = l := by
  simp only [parseVersionChars] at h
  split at h
  · rename_i l2 heq1
    split at h
    · rename_i l3 heq2
      split at h
      · rename_i hcanon
        rw [Bool.and_eq_true, Bool.and_eq_true] at hcanon
        obtain ⟨⟨hmaj, hminr⟩, hpat⟩ := hcanon
        have e1 := List.takeWhile_append_dropWhile isDigitChar l
        rw [heq1] at e1
        have e2 := List.takeWhile_append_dropWhile isDigitChar l2
        rw [heq2] at e2
        have e3 := List.takeWhile_append_dropWhile isDigitChar l3
        split at h
        · rename_i heq3
          obtain rfl := Option.some.inj h
          simp only [renderChars, suffixChars]
          rw [natToChars_charsToNat _ hmaj, natToChars_charsToNat _ hminr,
            natToChars_charsToNat _ hpat]
          rw [heq3, List.append_nil] at e3
          rw [List.append_nil, e3, e2, e1]
        · rename_i sfx heq3
          split at h
          · rename_i lab num heqs
            obtain rfl := Option.some.inj h
            simp only [renderChars, suffixChars]
            rw [natToChars_charsToNat _ hmaj, natToChars_charsToNat _ hminr,
              natToChars_charsToNat _ hpat]
            rw [parseSuffixChars_roundtrip sfx lab num heqs]
            rw [heq3] at e3
            rw [e3, e2, e1]
          · exact absurd h (by simp)
        · exact absurd h (by simp)
      · exact absurd h (by simp)
    · exact absurd h (by simp)
  · exact absurd h (by simp)

/-- C8: round trip.  For every version string accepted by `Parse` —
`MAJOR.MINOR.PATCH` with canonical decimal components and an optional
`-SUFFIXNUMBER` segment — rendering the parsed version reproduces the
string exactly; the suffix segment is omitted when `suffix` is unset and
the trailing counter is omitted when `suffix_number` is unset, which is
precisely what makes the reproduction exact. -/
theorem version_render_parse_roundtrip (s : String) (v : Version)
    (h : parseVersion s = some v) : renderVersion v = s := by
  rw [renderVersion, parseVersionChars_roundtrip s.data v h]

theorem version_render_parse_roundtrip_witness :
    parseVersion "1.2.3-dev4" =
        some { major := 1, minor := 2, patch := 3,
               suffix := some "dev", suffix_number := some 4 } ∧
      renderVersion
          { major := 1, minor := 2, patch := 3,
            suffix := some "dev", suffix_number := some 4 } = "1.2.3-dev4" :=
  ⟨by decide, version_render_parse_roundtrip "1.2.3-dev4" _ (by decide)⟩
